import Mathlib

/-!
Verification development for the ClaramentevFinal reading application.

The embedded code comes from:
  - `src/services/geminiService.ts` — base64/PCM audio codec adapter
    (`decode`, `encode`, `decodeAudioData`);
  - `src/components/AdaptiveReader.tsx` — the streaming narration pipeline
    (`handlePlayAudio`, its `fetchWorker` producer, the consumer loop,
    `stopAudio`, and the sentence chunking expression).

Pure functions are embedded as Lean functions; the narration pipeline, which
interleaves two asynchronous loops on the browser event loop, is embedded as a
labelled small-step transition system whose atomic steps are exactly the code
segments between `await` suspension points.
-/

namespace Claramente

/-! ## Audio codec adapter (`decodeAudioData`, geminiService.ts lines 44-63)

JavaScript `Uint8Array` views carry a backing `ArrayBuffer`, a `byteOffset`
and a `byteLength`.  Bytes are modelled as `Fin 256`; audio samples as `ℚ`
(the produced `Float32Array` values here are exact: small integers divided
by 32768 are representable in single precision). -/

abbrev Byte := Fin 256

/-- A `Uint8Array` view: backing buffer, view offset and view length. -/
structure ByteView where
  buf : List Byte
  byteOffset : Nat
  byteLength : Nat
deriving Repr, DecidableEq

/-- The bytes the view denotes.  This models
`data.buffer.slice(data.byteOffset, data.byteOffset + data.byteLength)`:
`ArrayBuffer.slice` clamps to the buffer bounds, exactly as `drop`/`take` do. -/
def ByteView.slice (v : ByteView) : List Byte :=
  (v.buf.drop v.byteOffset).take v.byteLength

/-- Reinterpret one little-endian byte pair as a signed 16-bit integer,
as `Int16Array` element access does. -/
def toInt16 (lo hi : Byte) : Int :=
  let v : Nat := lo.val + 256 * hi.val
  if v < 32768 then (v : Int) else (v : Int) - 65536

/-- `new Int16Array(arrayBuffer)`: consecutive little-endian byte pairs.
(The constructor itself throws on odd byte length; that check lives in
`decodeAudioData` below.) -/
def bytesToInt16LE : List Byte → List Int
  | lo :: hi :: rest => toInt16 lo hi :: bytesToInt16LE rest
  | _ => []

/-- The result of `ctx.createBuffer`: per-channel sample data at a rate. -/
structure AudioBuffer where
  sampleRate : Nat
  channels : List (List ℚ)
deriving Repr, DecidableEq

deriving instance DecidableEq for Except

/-- `dataInt16[k] / 32768.0`. -/
def sample (x : Int) : ℚ := (x : ℚ) / 32768

/-- Embedding of `decodeAudioData` (geminiService.ts lines 44-63).

```
const arrayBuffer = data.buffer.slice(data.byteOffset, data.byteOffset + data.byteLength);
const dataInt16 = new Int16Array(arrayBuffer);
const frameCount = dataInt16.length / numChannels;
const buffer = ctx.createBuffer(numChannels, frameCount, sampleRate);
for (let channel = 0; channel < numChannels; channel++) {
  const channelData = buffer.getChannelData(channel);
  for (let i = 0; i < frameCount; i++) {
    channelData[i] = dataInt16[i * numChannels + channel] / 32768.0;
  }
}
```

Host API behaviour made explicit:
  - `new Int16Array(ab)` throws a `RangeError` when `ab.byteLength` is odd;
  - JS `/` is exact, so `frameCount` may be fractional; WebIDL converts the
    `length` argument of `createBuffer` to `unsigned long` by truncation,
    i.e. to `⌊dataInt16.length / numChannels⌋` (Nat division below);
  - `createBuffer` throws `NotSupportedError` when the channel count is
    outside 1..32, the (truncated) length is 0, or the sample rate is
    outside 8000..96000;
  - the write loop runs while `i < frameCount` with the fractional bound, but
    `Float32Array` writes past the end of `channelData` are silently ignored
    and the corresponding reads are never visible, so the observable result
    is exactly the first `⌊dataInt16.length / numChannels⌋` frames.  (Within
    those frames `i * numChannels + channel < dataInt16.length`, so the
    `getD` default below is never read.) -/
def decodeAudioData (data : ByteView) (sampleRate : Nat := 24000)
    (numChannels : Nat := 1) : Except String AudioBuffer :=
  let arrayBuffer := data.slice
  if arrayBuffer.length % 2 ≠ 0 then
    .error ("RangeError: byte length of Int16Array should be a multiple of 2")
  else
    let dataInt16 := bytesToInt16LE arrayBuffer
    let frameCount := dataInt16.length / numChannels
    if numChannels = 0 ∨ 32 < numChannels then
      .error ("NotSupportedError: number of channels out of range")
    else if sampleRate < 8000 ∨ 96000 < sampleRate then
      .error ("NotSupportedError: sample rate out of range")
    else if frameCount = 0 then
      .error ("NotSupportedError: buffer length must be positive")
    else
      .ok { sampleRate := sampleRate,
            channels := (List.range numChannels).map (fun channel =>
              (List.range frameCount).map (fun i =>
                sample (dataInt16.getD (i * numChannels + channel) 0))) }

/-- A fresh zero-offset copy of the bytes a view denotes, i.e. the result of
copying `v.slice` into a new allocation and viewing it whole. -/
def ByteView.freshCopy (v : ByteView) : ByteView :=
  { buf := v.slice, byteOffset := 0, byteLength := v.slice.length }

/-! ## Text chunker (AdaptiveReader.tsx lines 68-69)

```
const sentences = text.match(/[^.!?\n]+[.!?\n]*/g) || [text];
const chunks = sentences.map(s => s.trim()).filter(s => s.length > 3);
```

The regular expression matches a maximal run of non-terminator characters
followed by the maximal run of terminator characters (`.`, `!`, `?`, newline).
Global matching therefore skips any terminators before the first
non-terminator character and then tiles the rest of the string; it yields no
match (so `match` returns `null` and the fallback `[text]` applies) exactly
when the text contains no non-terminator character. -/

/-- Membership in the terminator class `[.!?\n]`. -/
def isTerm (c : Char) : Bool := c = '.' || c = '!' || c = '?' || c = '\n'

/-- State machine equivalent of globally matching `[^.!?\n]+[.!?\n]*`:
`acc` is the current match built in reverse, `inTerms` records whether the
match is already inside its trailing terminator run. -/
def splitGo : List Char → List Char → Bool → List (List Char)
  | [], acc, _ => if acc.isEmpty then [] else [acc.reverse]
  | c :: cs, acc, inTerms =>
    if isTerm c then
      if acc.isEmpty then splitGo cs [] false
      else splitGo cs (c :: acc) true
    else
      if inTerms then acc.reverse :: splitGo cs [c] false
      else splitGo cs (c :: acc) false

/-- `text.match(/[^.!?\n]+[.!?\n]*/g)`, with `[]` standing for `null`. -/
def splitSentences (t : List Char) : List (List Char) := splitGo t [] false

/-- The ECMAScript whitespace class removed by `String.prototype.trim`:
WhiteSpace (TAB, VT, FF, SP, NBSP, ZWNBSP and the Unicode `Space_Separator`
code points) together with LineTerminator (LF, CR, LS, PS). -/
def isJsWs (c : Char) : Bool :=
  c = ' ' || c = '\t' || c = '\n' || c = '\r' ||
  c.toNat = 0x0B || c.toNat = 0x0C || c.toNat = 0xA0 || c.toNat = 0xFEFF ||
  c.toNat = 0x1680 || (0x2000 <= c.toNat && c.toNat <= 0x200A) ||
  c.toNat = 0x2028 || c.toNat = 0x2029 || c.toNat = 0x202F ||
  c.toNat = 0x205F || c.toNat = 0x3000

/-- `s.trim()`. -/
def jsTrim (l : List Char) : List Char :=
  ((l.dropWhile isJsWs).reverse.dropWhile isJsWs).reverse

/-- The chunk sequence computed by `handlePlayAudio` from the document text:
match (with the `null` fallback `[text]`), trim, drop fragments of length at
most 3. -/
def getChunks (t : List Char) : List (List Char) :=
  let ss := splitSentences t
  let sentences := if ss.isEmpty then [t] else ss
  (sentences.map jsTrim).filter (fun s => 3 < s.length)

/-- The chunk computation as the claim words it — "splitting the text on the
sentence-terminal punctuation marks '.', '!', '?' and newline characters",
then trimming and dropping short fragments — with no `null`-match fallback.
Stated from the claim's words, for comparison with `getChunks`. -/
def splitOnlyChunks (t : List Char) : List (List Char) :=
  ((splitSentences t).map jsTrim).filter (fun s => 3 < s.length)

/-! ## Streaming narration pipeline (AdaptiveReader.tsx lines 47-113)

`handlePlayAudio` runs a producer (`fetchWorker`) and a consumer (the `while`
loop after `fetchWorker()`) cooperatively on the browser event loop.  The
variables `audioBufferQueue`, `fetchIndex` and `playIndex` are locals of one
invocation; `activeSourcesRef`, `nextStartTimeRef`, `isAbortedRef`,
`playbackRateRef` and the React state `isReading` / `isBuffering` are shared
across invocations.  Each invocation of `handlePlayAudio` that actually starts
playback is a *run*; re-invoking play appends a fresh run whose locals start
over while the shared refs persist, exactly as in the source.

Atomic steps are the synchronous segments between `await` points:
  - producer: loop-head check + `generateSpeech` call start (`fetchStart`),
    resumption after `generateSpeech` with the abort check (`fetchOk` /
    `fetchErr`), resumption after `decodeAudioData` with the queue push
    (`decodeDone` / `decodeErr`), the capacity-full 400 ms poll (`prodSleep`),
    and loop exit (`prodExit`);
  - consumer: loop-head check + shift + source creation + `source.start`
    (`play`), waking from the duration sleep (`waitDone`), the empty-queue
    200 ms poll (`consPoll`), and loop exit plus the trailing
    `if (playIndex >= chunks.length && !isAborted) setIsReading(false)`
    (`consExit`);
  - environment: the speed slider writing `playbackRateRef` (`setRate`),
    `stopAudio` (`stop`), the audio clock advancing (`tick`), and a new
    `handlePlayAudio` invocation while idle (`reinvoke`).

A decoded chunk buffer is represented by its chunk index paired with its
duration in seconds (a successfully decoded buffer has at least one frame, so
its duration is positive).  Scheduled sources are recorded in a `sched`
history; `requests` records every `generateSpeech` call as (run, chunk index).
-/

/-- Control state of one run's `fetchWorker` loop. -/
inductive ProdState
  | loopHead
  | fetching (i : Nat)
  | decoding (i : Nat) (d : ℚ)
  | finished
deriving Repr, DecidableEq

/-- Control state of one run's consumer loop. -/
inductive ConsState
  | loopHead
  | waiting
  | finished
deriving Repr, DecidableEq

/-- The locals of one `handlePlayAudio` invocation. -/
structure RunState where
  queue : List (Nat × ℚ)
  fetchIndex : Nat
  playIndex : Nat
  producer : ProdState
  consumer : ConsState
deriving Repr, DecidableEq

/-- One `source.start(startTime)` call: which run scheduled which chunk, at
what start time, with the playback rate read at schedule time and the
buffer's own (rate-independent) duration. -/
structure Sched where
  run : Nat
  chunkIdx : Nat
  startTime : ℚ
  rate : ℚ
  duration : ℚ
deriving Repr, DecidableEq

/-- Whole-system state: the fixed chunk list, the locals of every run so far,
the shared refs, the React status flags, and the ghost histories `sched`
(sources started), `requests` (`generateSpeech` calls) and `stopCalls`
(sources `stop()` has been called on). -/
structure SysState where
  chunks : List (List Char)
  runs : List RunState
  aborted : Bool
  activeSources : List Nat
  stopCalls : List Nat
  nextStartTime : ℚ
  currentTime : ℚ
  playbackRate : ℚ
  isReading : Bool
  isBuffering : Bool
  sched : List Sched
  requests : List (Nat × Nat)
deriving Repr, DecidableEq

/-- Scheduler choices: which pending continuation runs next, and the data
(duration, rate, clock delta) the environment supplies. -/
inductive Label
  | fetchStart (r : Nat)
  | fetchOk (r : Nat) (d : ℚ)
  | fetchErr (r : Nat)
  | decodeDone (r : Nat)
  | decodeErr (r : Nat)
  | prodSleep (r : Nat)
  | prodExit (r : Nat)
  | play (r : Nat)
  | waitDone (r : Nat)
  | consPoll (r : Nat)
  | consExit (r : Nat)
  | setRate (q : ℚ)
  | stop
  | tick (dt : ℚ)
  | reinvoke
deriving Repr, DecidableEq

/-- The locals a fresh `handlePlayAudio` invocation allocates:
`audioBufferQueue = []`, `fetchIndex = 0`, `playIndex = 0`, both loops at
their heads. -/
def freshRun : RunState :=
  { queue := [], fetchIndex := 0, playIndex := 0,
    producer := .loopHead, consumer := .loopHead }

/-- One atomic step of the event loop; `none` when the label's continuation
is not enabled in `s`. -/
def applyStep (l : Label) (s : SysState) : Option SysState :=
  match l with
  | .fetchStart r =>
    match s.runs[r]? with
    | some ρ =>
      match ρ.producer with
      | .loopHead =>
        if ρ.fetchIndex < s.chunks.length ∧ s.aborted = false ∧
            ρ.queue.length < 2 then
          some { s with
            runs := s.runs.set r { ρ with
              fetchIndex := ρ.fetchIndex + 1,
              producer := .fetching ρ.fetchIndex },
            requests := s.requests ++ [(r, ρ.fetchIndex)] }
        else none
      | _ => none
    | none => none
  | .fetchOk r d =>
    match s.runs[r]? with
    | some ρ =>
      match ρ.producer with
      | .fetching i =>
        if 0 < d then
          some { s with
            runs := s.runs.set r { ρ with
              producer := if s.aborted then .finished else .decoding i d } }
        else none
      | _ => none
    | none => none
  | .fetchErr r =>
    match s.runs[r]? with
    | some ρ =>
      match ρ.producer with
      | .fetching _ =>
        some { s with runs := s.runs.set r { ρ with producer := .loopHead } }
      | _ => none
    | none => none
  | .decodeDone r =>
    match s.runs[r]? with
    | some ρ =>
      match ρ.producer with
      | .decoding i d =>
        some { s with
          runs := s.runs.set r { ρ with
            queue := ρ.queue ++ [(i, d)], producer := .loopHead } }
      | _ => none
    | none => none
  | .decodeErr r =>
    match s.runs[r]? with
    | some ρ =>
      match ρ.producer with
      | .decoding _ _ =>
        some { s with runs := s.runs.set r { ρ with producer := .loopHead } }
      | _ => none
    | none => none
  | .prodSleep r =>
    match s.runs[r]? with
    | some ρ =>
      match ρ.producer with
      | .loopHead =>
        if ρ.fetchIndex < s.chunks.length ∧ s.aborted = false ∧
            2 ≤ ρ.queue.length then some s
        else none
      | _ => none
    | none => none
  | .prodExit r =>
    match s.runs[r]? with
    | some ρ =>
      match ρ.producer with
      | .loopHead =>
        if s.chunks.length ≤ ρ.fetchIndex ∨ s.aborted = true then
          some { s with runs := s.runs.set r { ρ with producer := .finished } }
        else none
      | _ => none
    | none => none
  | .play r =>
    match s.runs[r]? with
    | some ρ =>
      match ρ.consumer with
      | .loopHead =>
        match ρ.queue with
        | (i, d) :: rest =>
          if ρ.playIndex < s.chunks.length ∧ s.aborted = false then
            some { s with
              runs := s.runs.set r { ρ with
                queue := rest, playIndex := ρ.playIndex + 1,
                consumer := .waiting },
              isBuffering := false,
              sched := s.sched ++
                [{ run := r, chunkIdx := i,
                   startTime := max s.nextStartTime s.currentTime,
                   rate := s.playbackRate, duration := d }],
              activeSources := s.activeSources ++ [s.sched.length],
              nextStartTime :=
                max s.nextStartTime s.currentTime + d / s.playbackRate }
          else none
        | [] => none
      | _ => none
    | none => none
  | .waitDone r =>
    match s.runs[r]? with
    | some ρ =>
      match ρ.consumer with
      | .waiting =>
        some { s with runs := s.runs.set r { ρ with consumer := .loopHead } }
      | _ => none
    | none => none
  | .consPoll r =>
    match s.runs[r]? with
    | some ρ =>
      match ρ.consumer with
      | .loopHead =>
        if ρ.playIndex < s.chunks.length ∧ s.aborted = false ∧
            ρ.queue = [] then
          some { s with isBuffering := true }
        else none
      | _ => none
    | none => none
  | .consExit r =>
    match s.runs[r]? with
    | some ρ =>
      match ρ.consumer with
      | .loopHead =>
        if s.chunks.length ≤ ρ.playIndex ∨ s.aborted = true then
          some { s with
            runs := s.runs.set r { ρ with consumer := .finished },
            isReading :=
              if s.chunks.length ≤ ρ.playIndex ∧ s.aborted = false then false
              else s.isReading }
        else none
      | _ => none
    | none => none
  | .setRate q => if 0 < q then some { s with playbackRate := q } else none
  | .stop =>
    some { s with
      aborted := true,
      stopCalls := s.stopCalls ++ s.activeSources,
      activeSources := [],
      isReading := false, isBuffering := false }
  | .tick dt =>
    if 0 ≤ dt then some { s with currentTime := s.currentTime + dt } else none
  | .reinvoke =>
    if s.isReading = false then
      some { s with
        runs := s.runs ++ [freshRun],
        aborted := false,
        isReading := true, isBuffering := true,
        nextStartTime := s.currentTime }
    else none

/-- The state right after the first `handlePlayAudio` invocation reaches
`fetchWorker()`: chunks computed from the text, one fresh run, abort flag
cleared, `nextStartTimeRef.current = ctx.currentTime`, `isReading` and
`isBuffering` set. -/
def init (text : List Char) (t0 r0 : ℚ) : SysState :=
  { chunks := getChunks text,
    runs := [freshRun],
    aborted := false,
    activeSources := [], stopCalls := [],
    nextStartTime := t0, currentTime := t0, playbackRate := r0,
    isReading := true, isBuffering := true,
    sched := [], requests := [] }

/-- Some enabled step leads from `a` to `b`. -/
def StepAny (a b : SysState) : Prop := ∃ l, applyStep l a = some b

/-- `s` is reachable by interleaved atomic steps from the initial
invocation on `text`. -/
def Reachable (text : List Char) (t0 r0 : ℚ) (s : SysState) : Prop :=
  Relation.ReflTransGen StepAny (init text t0 r0) s

/-- Successor state for concrete traces (the step must be enabled). -/
def stepTo (s : SysState) (l : Label) : SysState := (applyStep l s).getD s

/-- The status caption rendered next to the play button
(AdaptiveReader.tsx READ screen): these are the only two labels the
component ever shows there. -/
def statusLabel (isReading : Bool) : String :=
  if isReading then "Escuchando..." else "Modo Narrador"

/-- Chunk indices scheduled by run `r`, in schedule order. -/
def runSchedL (l : List Sched) (r : Nat) : List Nat :=
  (l.filter (fun e => e.run == r)).map Sched.chunkIdx

/-- Chunk indices requested from `generateSpeech` by run `r`, in call order. -/
def runReqL (l : List (Nat × Nat)) (r : Nat) : List Nat :=
  (l.filter (fun p => p.1 == r)).map Prod.snd

/-- The chunk indices run `r` owns, in order: already scheduled ones followed
by the ones sitting in its queue. -/
def ownIdx (sched : List Sched) (r : Nat) (ρ : RunState) : List Nat :=
  runSchedL sched r ++ ρ.queue.map Prod.fst

/-- Strict upper bound the producer's control position puts on every chunk
index the run has pushed so far. -/
def prodBound (ρ : RunState) : Nat :=
  match ρ.producer with
  | .loopHead => ρ.fetchIndex
  | .finished => ρ.fetchIndex
  | .fetching i => i
  | .decoding i _ => i

/-- Per-run inductive invariant: the run's scheduled-then-queued chunk
indices are strictly increasing and all below the producer's position; an
in-flight fetch is for the chunk just before the (already advanced) fetch
cursor; the cursor never passes the chunk count; and the run has requested
exactly the chunks below its cursor, in index order. -/
structure RunInv (sched : List Sched) (requests : List (Nat × Nat))
    (nChunks : Nat) (r : Nat) (ρ : RunState) : Prop where
  pw : List.Pairwise (· < ·) (ownIdx sched r ρ)
  bound : ∀ j ∈ ownIdx sched r ρ, j < prodBound ρ
  flight : ∀ i, (ρ.producer = .fetching i ∨ ∃ d, ρ.producer = .decoding i d) →
    ρ.fetchIndex = i + 1
  fetchLe : ρ.fetchIndex ≤ nChunks
  req : runReqL requests r = List.range ρ.fetchIndex

/-- System invariant: every run satisfies its run invariant, ghost history
entries refer to existing runs, and every started source is still in the
active list unless `stop()` has been called on it. -/
structure Inv (s : SysState) : Prop where
  runInv : ∀ (r : Nat) (ρ : RunState), s.runs[r]? = some ρ →
    RunInv s.sched s.requests s.chunks.length r ρ
  schedRun : ∀ e ∈ s.sched, e.run < s.runs.length
  reqRun : ∀ p ∈ s.requests, p.1 < s.runs.length
  srcTracked : ∀ i, i < s.sched.length →
    i ∈ s.activeSources ∨ i ∈ s.stopCalls

/-- Invariant of a run on an empty chunk sequence: nothing is ever requested,
queued or scheduled and both cursors stay at zero. -/
def EmptyInv (s : SysState) : Prop :=
  s.requests = [] ∧ s.sched = [] ∧
  ∀ (r : Nat) (ρ : RunState), s.runs[r]? = some ρ →
    ρ.queue = [] ∧ ρ.fetchIndex = 0 ∧ ρ.playIndex = 0 ∧
    (ρ.producer = ProdState.loopHead ∨ ρ.producer = ProdState.finished)

/-! ### Concrete executions

Trace `zb`: one-chunk document "Hola.".  The first run fetches and decodes
chunk 0, the user stops playback, then presses play again (allowed, since
`stopAudio` set `isReading` to `false`).  The re-invocation resets the shared
`isAbortedRef` to `false`, which re-enables the first run's still-pending
loop continuations: `zb6` shows the stopped run starting a source after its
stop, `zb7` shows the new run re-requesting chunk 0 although its decoded
buffer still sits in the first run's queue. -/

def zbT : List Char := "Hola.".toList

def zb0 : SysState := init zbT 0 1

def zb1 : SysState := stepTo zb0 (.fetchStart 0)

def zb2 : SysState := stepTo zb1 (.fetchOk 0 1)

def zb3 : SysState := stepTo zb2 (.decodeDone 0)

def zb4 : SysState := stepTo zb3 .stop

def zb5 : SysState := stepTo zb4 .reinvoke

def zb6 : SysState := stepTo zb5 (.play 0)

def zb7 : SysState := stepTo zb5 (.fetchStart 1)

/-! Trace `ex`: three-chunk document.  Chunk 0 is fetched and decoded, the
synthesis request for chunk 1 fails (`fetchErr`), chunk 2 is fetched and
decoded; the consumer plays chunk 0 and then chunk 2; finally the user
stops. -/

def exT : List Char := "Ana come pan. Luis lee. Eva salta.".toList

def ex0 : SysState := init exT 0 1

def ex1 : SysState := stepTo ex0 (.fetchStart 0)

def ex2 : SysState := stepTo ex1 (.fetchOk 0 1)

def ex3 : SysState := stepTo ex2 (.decodeDone 0)

def ex4 : SysState := stepTo ex3 (.fetchStart 0)

def ex5 : SysState := stepTo ex4 (.fetchErr 0)

def ex6 : SysState := stepTo ex5 (.fetchStart 0)

def ex7 : SysState := stepTo ex6 (.fetchOk 0 1)

def ex8 : SysState := stepTo ex7 (.decodeDone 0)

def ex9 : SysState := stepTo ex8 (.play 0)

def ex10 : SysState := stepTo ex9 (.waitDone 0)

def ex11 : SysState := stepTo ex10 (.play 0)

def ex12 : SysState := stepTo ex11 .stop

/-- The empty-document run: `init` on the empty text, after the consumer
observes `playIndex >= chunks.length` and runs the trailing
`setIsReading(false)`. -/
def c3s1 : SysState := stepTo (init ([] : List Char) 0 1) (.consExit 0)

/-! ## Lemmas about the audio codec -/

theorem bytesToInt16LE_length : ∀ l : List Byte,
    (bytesToInt16LE l).length = l.length / 2
  | [] => by simp [bytesToInt16LE]
  | [_] => by simp [bytesToInt16LE]
  | _ :: _ :: rest => by
    simp only [bytesToInt16LE, List.length_cons]
    rw [bytesToInt16LE_length rest]
    omega

theorem toInt16_range (lo hi : Byte) :
    -32768 ≤ toInt16 lo hi ∧ toInt16 lo hi ≤ 32767 := by
  have h1 := lo.isLt
  have h2 := hi.isLt
  simp only [toInt16]
  split <;> omega

theorem mem_bytesToInt16LE_range : ∀ {l : List Byte} {x : Int},
    x ∈ bytesToInt16LE l → -32768 ≤ x ∧ x ≤ 32767 := by
  intro l
  induction l using bytesToInt16LE.induct with
  | case1 lo hi rest ih =>
    intro x hx
    rcases List.mem_cons.mp hx with h | h
    · exact h ▸ toInt16_range lo hi
    · exact ih h
  | case2 l h =>
    intro x hx
    rcases l with _ | ⟨a, _ | ⟨b, rest⟩⟩
    · simp [bytesToInt16LE] at hx
    · simp [bytesToInt16LE] at hx
    · exact absurd rfl (h a b rest)

theorem getD_int16_range (l : List Int)
    (hl : ∀ x ∈ l, -32768 ≤ x ∧ x ≤ 32767) (k : Nat) :
    -32768 ≤ l.getD k 0 ∧ l.getD k 0 ≤ 32767 := by
  rcases h : l[k]? with _ | x
  · simp [List.getD_eq_getElem?_getD, h]
  · have hm := hl x (List.getElem?_mem h)
    simpa [List.getD_eq_getElem?_getD, h] using hm

theorem sample_range {x : Int} (h1 : -32768 ≤ x) (h2 : x ≤ 32767) :
    -1 ≤ sample x ∧ sample x ≤ 1 := by
  have hx1 : (-32768 : ℚ) ≤ (x : ℚ) := by exact_mod_cast h1
  have hx2 : (x : ℚ) ≤ 32767 := by exact_mod_cast h2
  constructor
  · rw [sample, le_div_iff₀ (by norm_num : (0 : ℚ) < 32768)]
    linarith
  · rw [sample, div_le_one (by norm_num : (0 : ℚ) < 32768)]
    linarith

theorem range_map_sample_getD : ∀ l : List Int,
    (List.range l.length).map (fun i => sample (l.getD i 0)) = l.map sample
  | [] => by simp
  | x :: xs => by
    rw [List.length_cons, List.range_succ_eq_map, List.map_cons, List.map_map,
      List.map_cons]
    refine congrArg₂ _ rfl ?_
    have h : ((fun i => sample ((x :: xs).getD i 0)) ∘ Nat.succ) =
        fun i => sample (xs.getD i 0) := rfl
    rw [h, range_map_sample_getD xs]

/-- C1: decoding a `Uint8Array` view that is a sub-slice of a larger backing
buffer (non-zero `byteOffset`) gives exactly the same result as decoding the
same bytes copied into a fresh zero-offset buffer: `decodeAudioData` slices
the backing buffer with the view's explicit `byteOffset`/`byteLength` and
never assumes the view starts at offset 0. -/
theorem c1_offset_view_eq (v : ByteView) (sr nc : Nat)
    (_hoff : 0 < v.byteOffset)
    (_hwf : v.byteOffset + v.byteLength ≤ v.buf.length) :
    decodeAudioData v sr nc = decodeAudioData v.freshCopy sr nc := by
  have hs : v.freshCopy.slice = v.slice := by
    simp [ByteView.freshCopy, ByteView.slice]
  simp only [decodeAudioData, hs]

/-- C1 witness: a 4-byte view at offset 2 of a 7-byte buffer decodes like its
fresh zero-offset copy; the common result is the two samples
`sample (-32768) = -1` and `sample 32767`. -/
theorem c1_witness :
    decodeAudioData ⟨[9, 9, 0, 128, 255, 127, 9], 2, 4⟩ 24000 1 =
      decodeAudioData (ByteView.freshCopy ⟨[9, 9, 0, 128, 255, 127, 9], 2, 4⟩)
        24000 1 ∧
    decodeAudioData ⟨[9, 9, 0, 128, 255, 127, 9], 2, 4⟩ 24000 1 =
      .ok ⟨24000, [[sample (-32768), sample 32767]]⟩ :=
  ⟨c1_offset_view_eq _ 24000 1 (by decide) (by decide), by rfl⟩

/-- C9: a successful decode interprets consecutive byte pairs of the view as
signed 16-bit little-endian integers and maps each value `x` to `x / 32768`
(for one channel the output is literally `map sample` of the reinterpreted
view bytes), so every produced sample lies in [-1, 1]; the bytes 0x00 0x80
denote -32768, which maps exactly to -1. -/
theorem c9_pcm_range (v : ByteView) (sr nc : Nat) (b : AudioBuffer)
    (h : decodeAudioData v sr nc = .ok b) :
    (∀ ch ∈ b.channels, ∀ q ∈ ch, -1 ≤ q ∧ q ≤ 1) ∧
    (nc = 1 → b.channels = [(bytesToInt16LE v.slice).map sample]) ∧
    toInt16 0 128 = -32768 ∧ sample (-32768) = -1 := by
  simp only [decodeAudioData] at h
  split at h
  · exact absurd h (by simp)
  · split at h
    · exact absurd h (by simp)
    · split at h
      · exact absurd h (by simp)
      · split at h
        · exact absurd h (by simp)
        · rw [Except.ok.injEq] at h
          subst h
          refine ⟨?_, ?_, by decide, by norm_num [sample]⟩
          · intro ch hch q hq
            rcases List.mem_map.mp hch with ⟨c0, _, hc0⟩
            rcases List.mem_map.mp (hc0 ▸ hq) with ⟨i, _, hi⟩
            rw [← hi]
            exact sample_range
              (getD_int16_range _ (fun x hx => mem_bytesToInt16LE_range hx) _).1
              (getD_int16_range _ (fun x hx => mem_bytesToInt16LE_range hx) _).2
          · intro hnc
            subst hnc
            simp only [List.range_succ, List.range_zero, List.nil_append,
              List.map_cons, List.map_nil, Nat.div_one, Nat.mul_one,
              Nat.add_zero]
            rw [range_map_sample_getD]

/-- C9 witness: the four bytes 0x00 0x80 0xFF 0x7F decode (one channel) to
exactly `map sample` of their 16-bit little-endian reinterpretation, i.e. to
[-1, 32767/32768]. -/
theorem c9_witness :
    (⟨24000, [[sample (-32768), sample 32767]]⟩ : AudioBuffer).channels =
      [(bytesToInt16LE (ByteView.slice ⟨[0, 128, 255, 127], 0, 4⟩)).map
        sample] ∧
    sample (-32768) = -1 :=
  have h := c9_pcm_range ⟨[0, 128, 255, 127], 0, 4⟩ 24000 1
    ⟨24000, [[sample (-32768), sample 32767]]⟩ (by rfl)
  ⟨h.2.1 rfl, h.2.2.2⟩

/-- C10 counterexample: the claim "decodeAudioData succeeds only when the
byte length is a multiple of 2 × numChannels, and throws for any other
length" is false both ways on the code: six bytes at two channels (6 not a
multiple of 4) succeed with a silently truncated one-frame buffer, because
`frameCount = 3 / 2` is truncated by `createBuffer` and the overrunning loop
writes are ignored; while an empty view (0 is a multiple of 2) throws,
because `createBuffer` rejects a zero frame count. -/
theorem c10_counterexample :
    decodeAudioData ⟨[1, 2, 3, 4, 5, 6], 0, 6⟩ 24000 2 =
      .ok ⟨24000, [[sample 513], [sample 1027]]⟩ ∧
    6 % (2 * 2) ≠ 0 ∧
    (decodeAudioData ⟨[], 0, 0⟩ 24000 1).isOk = false ∧
    0 % (2 * 1) = 0 :=
  ⟨by rfl, by decide, by rfl, by decide⟩

/-- C10 (amended): an odd view length makes the `Int16Array` reinterpretation
throw; any successful decode returns exactly `numChannels` channels of
`⌊⌊byteLength / 2⌋ / numChannels⌋ ≥ 1` frames (so an even length that is not
a sample-multiple of the channel count yields a silently truncated buffer,
not an error); and when the view length is a positive multiple of
2 × numChannels (with valid channel count and sample rate) the decode
succeeds with exactly byteLength / (2 × numChannels) frames per channel. -/
theorem c10_decode_length (v : ByteView) (sr nc : Nat) :
    (v.slice.length % 2 = 1 →
      decodeAudioData v sr nc =
        .error
          ("RangeError: byte length of Int16Array should be a multiple of 2")) ∧
    (∀ b, decodeAudioData v sr nc = .ok b →
      b.channels.length = nc ∧
      ∀ ch ∈ b.channels, ch.length = v.slice.length / 2 / nc ∧
        1 ≤ ch.length) ∧
    (v.slice.length % (2 * nc) = 0 → 0 < v.slice.length → 1 ≤ nc → nc ≤ 32 →
      8000 ≤ sr → sr ≤ 96000 →
      ∃ b, decodeAudioData v sr nc = .ok b ∧ b.channels.length = nc ∧
        ∀ ch ∈ b.channels, ch.length = v.slice.length / (2 * nc)) := by
  refine ⟨?_, ?_, ?_⟩
  · intro hodd
    have h2 : v.slice.length % 2 ≠ 0 := by omega
    simp [decodeAudioData, h2]
  · intro b hb
    simp only [decodeAudioData] at hb
    split at hb
    · exact absurd hb (by simp)
    · split at hb
      · exact absurd hb (by simp)
      · split at hb
        · exact absurd hb (by simp)
        · split at hb
          · exact absurd hb (by simp)
          · rename_i hodd hnc0 hsr0 hfc
            rw [Except.ok.injEq] at hb
            subst hb
            refine ⟨by simp, ?_⟩
            intro ch hch
            rcases List.mem_map.mp hch with ⟨c0, _, hc0⟩
            rw [← hc0]
            simp only [List.length_map, List.length_range]
            rw [bytesToInt16LE_length]
            constructor
            · rfl
            · rw [bytesToInt16LE_length] at hfc
              exact Nat.one_le_iff_ne_zero.mpr hfc
  · intro hmod hpos hnc1 hnc32 hsr1 hsr2
    obtain ⟨k, hk⟩ := Nat.dvd_of_mod_eq_zero hmod
    have hk2 : v.slice.length = 2 * (nc * k) := by rw [hk]; ring
    have hlen16 : (bytesToInt16LE v.slice).length = nc * k := by
      rw [bytesToInt16LE_length, hk2, Nat.mul_div_cancel_left _ (by omega)]
    have hkpos : 0 < k := by
      rcases Nat.eq_zero_or_pos k with h0 | h0
      · rw [h0, Nat.mul_zero] at hk2; omega
      · exact h0
    have hfc : (bytesToInt16LE v.slice).length / nc = k := by
      rw [hlen16, Nat.mul_div_cancel_left _ (by omega)]
    refine ⟨⟨sr, (List.range nc).map (fun channel =>
      (List.range ((bytesToInt16LE v.slice).length / nc)).map (fun i =>
        sample ((bytesToInt16LE v.slice).getD (i * nc + channel) 0)))⟩,
      ?_, by simp, ?_⟩
    · simp only [decodeAudioData]
      rw [if_neg (by omega), if_neg (by omega), if_neg (by omega),
        if_neg (by rw [hfc]; omega)]
    · intro ch hch
      rcases List.mem_map.mp hch with ⟨c0, _, hc0⟩
      rw [← hc0]
      simp only [List.length_map, List.length_range]
      rw [hfc, hk2, show 2 * (nc * k) = 2 * nc * k by ring,
        Nat.mul_div_cancel_left _ (by omega)]

/-- C10 witness for the amended claim: a 3-byte (odd) view throws the
`Int16Array` range error. -/
theorem c10_witness :
    decodeAudioData ⟨[1, 2, 3], 0, 3⟩ 24000 1 =
      .error
        ("RangeError: byte length of Int16Array should be a multiple of 2") :=
  (c10_decode_length ⟨[1, 2, 3], 0, 3⟩ 24000 1).1 (by decide)

/-! ## Lemmas about the text chunker -/

theorem splitGo_flatten : ∀ (t acc : List Char) (inT : Bool),
    (splitGo t acc inT).flatten =
      acc.reverse ++ (if acc.isEmpty then t.dropWhile isTerm else t)
  | [], acc, inT => by
    cases acc <;> simp [splitGo]
  | c :: cs, acc, inT => by
    by_cases hc : isTerm c
    · cases acc with
      | nil =>
        rw [splitGo]
        simp only [hc, if_true, List.isEmpty_nil]
        rw [splitGo_flatten cs [] false]
        simp [List.dropWhile_cons, hc]
      | cons a as =>
        rw [splitGo]
        simp only [hc, if_true, List.isEmpty_cons]
        rw [if_neg (by simp), splitGo_flatten cs (c :: a :: as) true]
        simp
    · by_cases hT : inT
      · rw [splitGo]
        simp only [hc, if_false, hT, if_true, Bool.false_eq_true]
        rw [List.flatten_cons, splitGo_flatten cs [c] false]
        simp [List.dropWhile_cons, hc]
      · rw [splitGo]
        simp only [hc, hT, Bool.false_eq_true, if_false]
        rw [splitGo_flatten cs (c :: acc) false]
        cases acc <;> simp [List.dropWhile_cons, hc]

/-- The global regex match tiles the document: concatenating the sentences
reproduces the text minus the terminator characters it starts with. -/
theorem splitSentences_flatten (t : List Char) :
    (splitSentences t).flatten = t.dropWhile isTerm := by
  rw [splitSentences, splitGo_flatten]
  simp

/-- `trim` only removes characters at the two ends: every list is its
leading whitespace, its trimmed core and its trailing whitespace. -/
theorem jsTrim_decomp (u : List Char) :
    ∃ pre post, u = pre ++ jsTrim u ++ post := by
  refine ⟨u.takeWhile isJsWs,
    ((u.dropWhile isJsWs).reverse.takeWhile isJsWs).reverse, ?_⟩
  conv_lhs => rw [← List.takeWhile_append_dropWhile isJsWs u]
  rw [List.append_assoc]
  refine congrArg₂ _ rfl ?_
  rw [jsTrim]
  conv_lhs =>
    rw [← List.reverse_reverse (u.dropWhile isJsWs),
      ← List.takeWhile_append_dropWhile isJsWs (u.dropWhile isJsWs).reverse,
      List.reverse_append]

theorem splitGo_ne_nil : ∀ (t acc : List Char) (inT : Bool),
    acc ≠ [] → splitGo t acc inT ≠ []
  | [], acc, inT, h => by
    rcases acc with _ | ⟨a, as⟩
    · exact absurd rfl h
    · simp [splitGo]
  | c :: cs, acc, inT, h => by
    rcases acc with _ | ⟨a, as⟩
    · exact absurd rfl h
    · by_cases hc : isTerm c
      · simp only [splitGo, hc, if_true, List.isEmpty_cons, if_neg,
          Bool.false_eq_true]
        exact splitGo_ne_nil cs (c :: a :: as) true (by simp)
      · by_cases hT : inT
        · simp [splitGo, hc, hT]
        · simp only [splitGo, hc, hT, Bool.false_eq_true, if_false]
          exact splitGo_ne_nil cs (c :: a :: as) false (by simp)

theorem splitGo_nil_ne_nil : ∀ t : List Char,
    (∃ c ∈ t, isTerm c = false) → splitGo t [] false ≠ []
  | [], h => by simp at h
  | c :: cs, h => by
    by_cases hc : isTerm c
    · simp only [splitGo, hc, if_true, List.isEmpty_nil]
      apply splitGo_nil_ne_nil cs
      rcases h with ⟨x, hx, hxt⟩
      rcases List.mem_cons.mp hx with h1 | h1
      · subst h1
        rw [hc] at hxt
        cases hxt
      · exact ⟨x, h1, hxt⟩
    · simp only [splitGo, hc, Bool.false_eq_true, if_false]
      exact splitGo_ne_nil cs [c] false (by simp)

theorem splitGo_nil_of_all_term : ∀ t : List Char,
    (∀ c ∈ t, isTerm c = true) → splitGo t [] false = []
  | [], _ => rfl
  | c :: cs, h => by
    have hc := h c (List.mem_cons_self c cs)
    simp only [splitGo, hc, if_true, List.isEmpty_nil]
    exact splitGo_nil_of_all_term cs
      (fun x hx => h x (List.mem_cons_of_mem c hx))

/-- The regex finds no match — so the `|| [text]` fallback fires — exactly
when every character of the document is a terminator. -/
theorem splitSentences_eq_nil_iff (t : List Char) :
    splitSentences t = [] ↔ ∀ c ∈ t, isTerm c = true := by
  constructor
  · intro h c hc
    by_contra hct
    exact splitGo_nil_ne_nil t ⟨c, hc, by simpa using hct⟩ h
  · exact splitGo_nil_of_all_term t

/-- C8 counterexample: the chunk sequence is not always computed by
splitting on '.', '!', '?' and newline.  For a document consisting solely
of terminator characters the regex finds no match, and the `|| [text]`
fallback makes the *whole text* the single candidate chunk — "????"
produces the chunk "????" (and "..!!\n.." produces a chunk that even
contains a newline), whereas splitting on the terminators produces no
chunk at all. -/
theorem c8_counterexample :
    getChunks "????".toList = ["????".toList] ∧
    splitOnlyChunks "????".toList = [] ∧
    getChunks "????".toList ≠ splitOnlyChunks "????".toList ∧
    getChunks "..!!\n..".toList = ["..!!\n..".toList] ∧
    splitOnlyChunks "..!!\n..".toList = [] := by decide

/-- C8 (amended): when the document contains at least one non-terminator
character — exactly when the regex finds a match — the chunk sequence is
computed deterministically by splitting on '.', '!', '?' and newline, then
trimming and dropping fragments of length at most 3 (`splitOnlyChunks`);
when the document consists solely of terminator characters the `|| [text]`
fallback instead makes the whole text the single candidate chunk, subject
to the same trim and minimum-length filter.  In both cases the sentences
tile the document after its leading terminators (so chunks appear in
document order), every chunk is the trim of a fragment of the original
text, and every chunk has length above the fixed minimum 3. -/
theorem c8_chunking (t : List Char) :
    (splitSentences t = [] ↔ ∀ c ∈ t, isTerm c = true) ∧
    (splitSentences t ≠ [] → getChunks t = splitOnlyChunks t) ∧
    (splitSentences t = [] →
      getChunks t = if 3 < (jsTrim t).length then [jsTrim t] else []) ∧
    (splitSentences t).flatten = t.dropWhile isTerm ∧
    ∀ c ∈ getChunks t, 3 < c.length ∧
      (∃ u pre post, t = pre ++ u ++ post ∧ c = jsTrim u) ∧
      ∃ pre2 post2, t = pre2 ++ c ++ post2 := by
  refine ⟨splitSentences_eq_nil_iff t, ?_, ?_, splitSentences_flatten t, ?_⟩
  · intro hne
    rcases hl : splitSentences t with _ | ⟨a, as⟩
    · exact absurd hl hne
    · simp [getChunks, splitOnlyChunks, hl]
  · intro hnil
    by_cases hp : 3 < (jsTrim t).length
    · simp [getChunks, hnil, hp]
    · simp [getChunks, hnil, hp]
  · intro c hc
    simp only [getChunks, List.mem_filter, List.mem_map,
      decide_eq_true_eq] at hc
    obtain ⟨⟨u, hu, hcu⟩, hlen⟩ := hc
    have hfrag : ∃ pre post, t = pre ++ u ++ post := by
      by_cases hss : (splitSentences t).isEmpty
      · rw [if_pos hss, List.mem_singleton] at hu
        exact ⟨[], [], by simp [hu]⟩
      · rw [if_neg hss] at hu
        obtain ⟨p1, p2, hinf⟩ := List.infix_of_mem_flatten hu
        rw [splitSentences_flatten] at hinf
        refine ⟨t.takeWhile isTerm ++ p1, p2, ?_⟩
        conv_lhs => rw [← List.takeWhile_append_dropWhile isTerm t]
        rw [← hinf]
        simp [List.append_assoc]
    obtain ⟨pre, post, hpp⟩ := hfrag
    refine ⟨hlen, ⟨u, pre, post, hpp, hcu.symm⟩, ?_⟩
    obtain ⟨a, b, hab⟩ := jsTrim_decomp u
    refine ⟨pre ++ a, b ++ post, ?_⟩
    rw [hpp, hab, ← hcu]
    simp [List.append_assoc]

/-- C8 witness: on a concrete multi-sentence document the chunk sequence
agrees with the pure split computation, the sentences tile the text, and
the chunk "Luis lee." passes the minimum-length filter. -/
theorem c8_witness :
    getChunks exT = splitOnlyChunks exT ∧
    (splitSentences exT).flatten = exT.dropWhile isTerm ∧
    3 < ("Luis lee.".toList).length :=
  ⟨(c8_chunking exT).2.1 (by decide),
    (c8_chunking exT).2.2.2.1,
    ((c8_chunking exT).2.2.2.2 ("Luis lee.".toList) (by decide)).1⟩

/-! ## Pipeline: playback-rate handling (C5) -/

/-- C5: the playback rate is read at schedule time.  A `setRate` step changes
no scheduled source and no cursor; a `play` step records the rate in effect
at that moment and advances the planned cursor by the buffer's duration
divided by that rate, starting at `max(plannedCursor, deviceNow)`; and the
schedule history is append-only, so sources scheduled before a rate change
keep their original rate and duration. -/
theorem c5_rate_schedule_time :
    (∀ s s' q, applyStep (.setRate q) s = some s' →
      s'.sched = s.sched ∧ s'.nextStartTime = s.nextStartTime ∧
      s'.runs = s.runs ∧ s'.playbackRate = q) ∧
    (∀ s s' r, applyStep (.play r) s = some s' →
      ∃ ρ i d rest, s.runs[r]? = some ρ ∧ ρ.queue = (i, d) :: rest ∧
        s'.sched = s.sched ++
          [⟨r, i, max s.nextStartTime s.currentTime, s.playbackRate, d⟩] ∧
        s'.nextStartTime =
          max s.nextStartTime s.currentTime + d / s.playbackRate) ∧
    (∀ l s s', applyStep l s = some s' → ∃ tl, s'.sched = s.sched ++ tl) := by
  refine ⟨?_, ?_, ?_⟩
  · intro s s' q h
    simp only [applyStep] at h
    split at h
    · rw [Option.some.injEq] at h
      subst h
      exact ⟨rfl, rfl, rfl, rfl⟩
    · cases h
  · intro s s' r h
    simp only [applyStep] at h
    split at h
    case _ ρ heq =>
      split at h
      · split at h
        case _ i d rest heq2 =>
          split at h
          · rw [Option.some.injEq] at h
            subst h
            exact ⟨ρ, i, d, rest, heq, heq2, rfl, rfl⟩
          · cases h
        · cases h
      all_goals cases h
    case _ => cases h
  · intro l s s' h
    cases l <;> simp only [applyStep] at h <;> repeat' split at h
    all_goals
      first
      | exact Option.noConfusion h
      | (rw [Option.some.injEq] at h; subst h;
         first
         | exact ⟨_, rfl⟩
         | exact ⟨[], (List.append_nil _).symm⟩)

/-- C5 witness: a concrete rate change to 3/2 and the concrete `play` step of
the `zb` trace instantiate the three parts. -/
theorem c5_witness :
    (stepTo zb0 (.setRate 2)).sched = zb0.sched ∧
    zb6.sched = zb5.sched ++
      [⟨0, 0, max zb5.nextStartTime zb5.currentTime, zb5.playbackRate, 1⟩] ∧
    zb4.sched = zb3.sched ++ [] :=
  ⟨(c5_rate_schedule_time.1 zb0 (stepTo zb0 (.setRate 2)) 2
      (by rfl)).1,
    by rfl, by rfl⟩

/-! ## Pipeline: concrete reachability of the example traces -/

theorem zbReach3 : Reachable zbT 0 1 zb3 :=
  Relation.ReflTransGen.tail
    (Relation.ReflTransGen.tail
      (Relation.ReflTransGen.tail Relation.ReflTransGen.refl
        ⟨.fetchStart 0, by rfl⟩)
      ⟨.fetchOk 0 1, by rfl⟩)
    ⟨.decodeDone 0, by rfl⟩

theorem zbReach4 : Reachable zbT 0 1 zb4 :=
  Relation.ReflTransGen.tail zbReach3 ⟨.stop, by rfl⟩

theorem zbReach5 : Reachable zbT 0 1 zb5 :=
  Relation.ReflTransGen.tail zbReach4 ⟨.reinvoke, by rfl⟩

theorem zbReach6 : Reachable zbT 0 1 zb6 :=
  Relation.ReflTransGen.tail zbReach5 ⟨.play 0, by rfl⟩

theorem zbReach7 : Reachable zbT 0 1 zb7 :=
  Relation.ReflTransGen.tail zbReach5 ⟨.fetchStart 1, by rfl⟩

theorem exReach11 : Reachable exT 0 1 ex11 :=
  Relation.ReflTransGen.tail
    (Relation.ReflTransGen.tail
      (Relation.ReflTransGen.tail
        (Relation.ReflTransGen.tail
          (Relation.ReflTransGen.tail
            (Relation.ReflTransGen.tail
              (Relation.ReflTransGen.tail
                (Relation.ReflTransGen.tail
                  (Relation.ReflTransGen.tail
                    (Relation.ReflTransGen.tail
                      (Relation.ReflTransGen.tail Relation.ReflTransGen.refl
                        ⟨.fetchStart 0, by rfl⟩)
                      ⟨.fetchOk 0 1, by rfl⟩)
                    ⟨.decodeDone 0, by rfl⟩)
                  ⟨.fetchStart 0, by rfl⟩)
                ⟨.fetchErr 0, by rfl⟩)
              ⟨.fetchStart 0, by rfl⟩)
            ⟨.fetchOk 0 1, by rfl⟩)
          ⟨.decodeDone 0, by rfl⟩)
        ⟨.play 0, by rfl⟩)
      ⟨.waitDone 0, by rfl⟩)
    ⟨.play 0, by rfl⟩

theorem exReach12 : Reachable exT 0 1 ex12 :=
  Relation.ReflTransGen.tail exReach11 ⟨.stop, by rfl⟩

/-! ## Re-invoking play (C7) and stopping (C6) -/

/-- C7 counterexample: in the `zb` execution, run 0 has fetched and decoded
chunk 0 (its buffer still sits in run 0's queue, and run 0's saved prefetch
index is 1), playback is stopped, and play is re-invoked.  The new run's
locals start over, so the very next producer step requests chunk 0 again —
refuting the claim that queued buffers are reused, that decoded chunks are
not fetched again, and that only chunks at or beyond the saved prefetch
index are requested. -/
theorem c7_counterexample :
    Reachable zbT 0 1 zb7 ∧
    zb4.runs[0]? = some ⟨[(0, 1)], 1, 0, .loopHead, .loopHead⟩ ∧
    applyStep .reinvoke zb4 = some zb5 ∧
    applyStep (.fetchStart 1) zb5 = some zb7 ∧
    zb7.requests = [(0, 0), (1, 0)] ∧
    ¬ 1 ≤ (0 : Nat) :=
  ⟨zbReach7, by rfl, by rfl, by rfl, by rfl, by decide⟩

/-- C7 (amended): re-invoking play while idle starts the pipeline over: the
new invocation allocates a fresh queue and fresh fetch/play cursors at zero
(they are locals of `handlePlayAudio`), appends them as a new run, clears the
shared abort flag, and resets the planned cursor to the current device time;
previously decoded buffers are not reused, so chunks already fetched are
fetched again from index 0. -/
theorem c7_fresh_run (s s' : SysState)
    (h : applyStep .reinvoke s = some s') :
    s'.runs = s.runs ++ [freshRun] ∧ freshRun.queue = [] ∧
    freshRun.fetchIndex = 0 ∧ freshRun.playIndex = 0 ∧
    s'.aborted = false ∧ s'.isReading = true ∧
    s'.nextStartTime = s.currentTime ∧ s'.requests = s.requests := by
  simp only [applyStep] at h
  split at h
  · rw [Option.some.injEq] at h
    subst h
    exact ⟨rfl, rfl, rfl, rfl, rfl, rfl, rfl, rfl⟩
  · cases h

/-- C7 witness: the concrete re-invocation `zb4 → zb5`. -/
theorem c7_witness :
    zb5.runs = zb4.runs ++ [freshRun] ∧ zb5.aborted = false ∧
    zb5.requests = zb4.requests :=
  have h := c7_fresh_run zb4 zb5 (by rfl)
  ⟨h.1, h.2.2.2.2.1, h.2.2.2.2.2.2.2⟩

/-- C6 counterexample: stopping is not final for the run being stopped.  In
the `zb` execution the stop step (`zb3 → zb4`) halts everything (no source
was started yet), but a later re-invocation clears the shared abort flag and
run 0's consumer — still parked at its loop head — then passes its
loop-boundary check and starts a source: `zb6` schedules chunk 0 on behalf
of run 0, after run 0 was stopped.  This refutes "after stop, no new audio
source is ever started by that run". -/
theorem c6_counterexample :
    Reachable zbT 0 1 zb4 ∧
    applyStep .stop zb3 = some zb4 ∧
    zb4.sched = [] ∧ zb4.aborted = true ∧
    Reachable zbT 0 1 zb6 ∧
    applyStep (.play 0) zb5 = some zb6 ∧
    zb6.sched.map Sched.run = [0] ∧ zb6.sched.map Sched.chunkIdx = [0] :=
  ⟨zbReach4, by rfl, by rfl, by rfl, zbReach6, by rfl, by rfl, by rfl⟩

/-- C3 counterexample: no "no text" state exists to be reported.  The READ
screen's status caption is `isReading ? 'Escuchando...' : 'Modo Narrador'`
— it has no no-text branch at all.  The empty-document run exits its loops
immediately (zero requests, zero scheduled buffers) and leaves the UI
showing the same generic idle caption as any idle state. -/
theorem c3_counterexample :
    applyStep (.consExit 0) (init ([] : List Char) 0 1) = some c3s1 ∧
    c3s1.isReading = false ∧ c3s1.requests = [] ∧ c3s1.sched = [] ∧
    statusLabel c3s1.isReading = statusLabel false ∧
    statusLabel false = "Modo Narrador" ∧
    statusLabel true = "Escuchando..." :=
  ⟨by rfl, by rfl, by rfl, by rfl, by rfl, by rfl, by rfl⟩

/-! ## The system invariant and its preservation -/

theorem runSchedL_append (l1 l2 : List Sched) (r : Nat) :
    runSchedL (l1 ++ l2) r = runSchedL l1 r ++ runSchedL l2 r := by
  simp [runSchedL, List.filter_append]

theorem runSchedL_single_eq {e : Sched} {r : Nat} (h : e.run = r) :
    runSchedL [e] r = [e.chunkIdx] := by
  simp [runSchedL, h]

theorem runSchedL_single_ne {e : Sched} {r : Nat} (h : ¬ e.run = r) :
    runSchedL [e] r = [] := by
  simp [runSchedL, h]

theorem runSchedL_eq_nil {l : List Sched} {n : Nat}
    (h : ∀ e ∈ l, e.run < n) : runSchedL l n = [] := by
  have hf : l.filter (fun e => e.run == n) = [] := by
    rw [List.filter_eq_nil_iff]
    intro a ha
    simp only [beq_iff_eq]
    exact Nat.ne_of_lt (h a ha)
  rw [runSchedL, hf, List.map_nil]

theorem runReqL_append (l1 l2 : List (Nat × Nat)) (r : Nat) :
    runReqL (l1 ++ l2) r = runReqL l1 r ++ runReqL l2 r := by
  simp [runReqL, List.filter_append]

theorem runReqL_single_eq {p : Nat × Nat} {r : Nat} (h : p.1 = r) :
    runReqL [p] r = [p.2] := by
  simp [runReqL, h]

theorem runReqL_eq_nil {l : List (Nat × Nat)} {n : Nat}
    (h : ∀ p ∈ l, p.1 < n) : runReqL l n = [] := by
  have hf : l.filter (fun p => p.1 == n) = [] := by
    rw [List.filter_eq_nil_iff]
    intro a ha
    simp only [beq_iff_eq]
    exact Nat.ne_of_lt (h a ha)
  rw [runReqL, hf, List.map_nil]

theorem runSchedL_append_mk {l : List Sched} {rr ci : Nat} {st ra du : ℚ}
    {r' : Nat} :
    runSchedL (l ++ [⟨rr, ci, st, ra, du⟩]) r' =
      runSchedL l r' ++ (if rr = r' then [ci] else []) := by
  rw [runSchedL_append]
  by_cases h : rr = r' <;> simp [runSchedL, h]

theorem prodBound_loopHead {ρ : RunState} (h : ρ.producer = .loopHead) :
    prodBound ρ = ρ.fetchIndex := by
  rw [prodBound, h]

theorem prodBound_fetching {ρ : RunState} {i : Nat}
    (h : ρ.producer = .fetching i) : prodBound ρ = i := by
  rw [prodBound, h]

theorem prodBound_decoding {ρ : RunState} {i : Nat} {d : ℚ}
    (h : ρ.producer = .decoding i d) : prodBound ρ = i := by
  rw [prodBound, h]

theorem runInv_fresh (sched : List Sched) (requests : List (Nat × Nat))
    (nChunks r : Nat) (hs : runSchedL sched r = [])
    (hr : runReqL requests r = []) :
    RunInv sched requests nChunks r freshRun := by
  constructor
  · show List.Pairwise _ (runSchedL sched r ++ _)
    rw [hs]
    exact List.Pairwise.nil
  · intro j hj
    rw [ownIdx, hs] at hj
    simp [freshRun] at hj
  · intro i hi
    rcases hi with h1 | ⟨d, h1⟩ <;> cases h1
  · exact Nat.zero_le _
  · rw [hr]
    rfl

theorem inv_init (text : List Char) (t0 r0 : ℚ) : Inv (init text t0 r0) := by
  refine ⟨?_, ?_, ?_, ?_⟩
  · intro r ρ h
    rcases r with _ | r
    · rw [show (init text t0 r0).runs[0]? = some freshRun from rfl,
        Option.some.injEq] at h
      subst h
      exact runInv_fresh [] [] _ 0 rfl rfl
    · rw [show (init text t0 r0).runs[r + 1]? = none from rfl] at h
      cases h
  · intro e he
    cases he
  · intro p hp
    cases hp
  · intro i hlt
    cases hlt

/-- `RunInv` is untouched by a run-local update that keeps the queue, the
fetch cursor and the producer's control state. -/
theorem RunInv.consumerStep {sched requests nChunks r} {ρ : RunState}
    (hRI : RunInv sched requests nChunks r ρ) (c : ConsState) :
    RunInv sched requests nChunks r { ρ with consumer := c } :=
  ⟨hRI.pw, hRI.bound, hRI.flight, hRI.fetchLe, hRI.req⟩

/-- The `Inv` fields survive replacing one run's locals, provided the new
locals satisfy `RunInv` and the shared ghost fields stay put. -/
theorem Inv.setRun {s : SysState} (hI : Inv s) {r : Nat} {ρ : RunState}
    (ρ' : RunState) (heq : s.runs[r]? = some ρ)
    (hR : RunInv s.sched s.requests s.chunks.length r ρ') :
    Inv { s with runs := s.runs.set r ρ' } := by
  refine ⟨?_, ?_, ?_, hI.srcTracked⟩
  · intro r' ρ'' h'
    rw [List.getElem?_set] at h'
    by_cases hrr : r = r'
    · subst hrr
      rw [if_pos rfl, if_pos (List.getElem?_eq_some.mp heq).1,
        Option.some.injEq] at h'
      subst h'
      exact hR
    · rw [if_neg hrr] at h'
      exact hI.runInv r' ρ'' h'
  · intro e he
    have := hI.schedRun e he
    simpa [List.length_set] using this
  · intro p hp
    have := hI.reqRun p hp
    simpa [List.length_set] using this

/-- `Inv` ignores the clock, cursor, rate and UI-flag fields. -/
theorem Inv.of_fields {s s' : SysState} (hI : Inv s)
    (hruns : s'.runs = s.runs) (hsched : s'.sched = s.sched)
    (hreq : s'.requests = s.requests) (hchunks : s'.chunks = s.chunks)
    (hact : s'.activeSources = s.activeSources)
    (hstop : s'.stopCalls = s.stopCalls) : Inv s' := by
  refine ⟨?_, ?_, ?_, ?_⟩
  · intro r ρ h
    rw [hruns] at h
    have := hI.runInv r ρ h
    rw [hsched, hreq, hchunks]
    exact this
  · intro e he
    rw [hsched] at he
    rw [hruns]
    exact hI.schedRun e he
  · intro p hp
    rw [hreq] at hp
    rw [hruns]
    exact hI.reqRun p hp
  · intro i hi
    rw [hsched] at hi
    rw [hact, hstop]
    exact hI.srcTracked i hi

theorem inv_step : ∀ {l : Label} {s s' : SysState},
    applyStep l s = some s' → Inv s → Inv s' := by
  intro l s s' h hI
  cases l with
  | fetchStart r =>
    simp only [applyStep] at h
    split at h
    case _ ρ heq =>
      split at h
      · rename_i hprod
        split at h
        · rename_i hguard
          rw [Option.some.injEq] at h
          subst h
          have hRI := hI.runInv r ρ heq
          have hlt := (List.getElem?_eq_some.mp heq).1
          refine ⟨?_, ?_, ?_, hI.srcTracked⟩
          · intro r' ρ'' h'
            rw [List.getElem?_set] at h'
            by_cases hrr : r = r'
            · subst hrr
              rw [if_pos rfl, if_pos hlt, Option.some.injEq] at h'
              subst h'
              refine ⟨hRI.pw, ?_, ?_, ?_, ?_⟩
              · intro j hj
                have hb := hRI.bound j hj
                rw [prodBound_loopHead hprod] at hb
                exact hb
              · intro i hi
                rcases hi with h1 | ⟨d, h1⟩ <;> cases h1 <;> rfl
              · exact hguard.1
              · show runReqL (s.requests ++ [(r, ρ.fetchIndex)]) r = _
                rw [runReqL_append, hRI.req, runReqL_single_eq rfl,
                  ← List.range_succ]
            · rw [if_neg hrr] at h'
              have hRI' := hI.runInv r' ρ'' h'
              refine ⟨hRI'.pw, hRI'.bound, hRI'.flight, hRI'.fetchLe, ?_⟩
              show runReqL (s.requests ++ [(r, ρ.fetchIndex)]) r' = _
              rw [runReqL_append, hRI'.req,
                show runReqL [(r, ρ.fetchIndex)] r' = [] by
                  simp [runReqL, hrr], List.append_nil]
          · intro e he
            have := hI.schedRun e he
            simpa [List.length_set] using this
          · intro p hp
            rcases List.mem_append.mp hp with h1 | h1
            · have := hI.reqRun p h1
              simpa [List.length_set] using this
            · rw [List.mem_singleton] at h1
              subst h1
              simpa [List.length_set] using hlt
        · exact Option.noConfusion h
      all_goals exact Option.noConfusion h
    case _ => exact Option.noConfusion h
  | fetchOk r d =>
    simp only [applyStep] at h
    split at h
    case _ ρ heq =>
      split at h
      case _ i hprod =>
        split at h
        · rw [Option.some.injEq] at h
          subst h
          have hRI := hI.runInv r ρ heq
          have hf : ρ.fetchIndex = i + 1 := hRI.flight i (Or.inl hprod)
          have hb' : ∀ j ∈ ownIdx s.sched r ρ, j < i := by
            intro j hj
            have hb := hRI.bound j hj
            rwa [prodBound_fetching hprod] at hb
          by_cases hab : s.aborted = true
          · rw [if_pos hab]
            refine hI.setRun _ heq ⟨hRI.pw, ?_, ?_, hRI.fetchLe, hRI.req⟩
            · intro j hj
              have := hb' j hj
              show j < ρ.fetchIndex
              omega
            · intro i' hi'
              rcases hi' with h1 | ⟨d', h1⟩ <;> cases h1
          · rw [if_neg hab]
            refine hI.setRun _ heq ⟨hRI.pw, ?_, ?_, hRI.fetchLe, hRI.req⟩
            · intro j hj
              have := hb' j hj
              show j < i
              omega
            · intro i' hi'
              rcases hi' with h1 | ⟨d', h1⟩
              · cases h1
              · cases h1
                exact hf
        · exact Option.noConfusion h
      all_goals exact Option.noConfusion h
    case _ => exact Option.noConfusion h
  | fetchErr r =>
    simp only [applyStep] at h
    split at h
    case _ ρ heq =>
      split at h
      case _ i hprod =>
        rw [Option.some.injEq] at h
        subst h
        have hRI := hI.runInv r ρ heq
        have hf : ρ.fetchIndex = i + 1 := hRI.flight i (Or.inl hprod)
        refine hI.setRun _ heq ⟨hRI.pw, ?_, ?_, hRI.fetchLe, hRI.req⟩
        · intro j hj
          have hb := hRI.bound j hj
          rw [prodBound_fetching hprod] at hb
          show j < ρ.fetchIndex
          omega
        · intro i' hi'
          rcases hi' with h1 | ⟨d', h1⟩ <;> cases h1
      all_goals exact Option.noConfusion h
    case _ => exact Option.noConfusion h
  | decodeDone r =>
    simp only [applyStep] at h
    split at h
    case _ ρ heq =>
      split at h
      case _ i d hprod =>
        rw [Option.some.injEq] at h
        subst h
        have hRI := hI.runInv r ρ heq
        have hf : ρ.fetchIndex = i + 1 := hRI.flight i (Or.inr ⟨d, hprod⟩)
        have hbnd : ∀ j ∈ ownIdx s.sched r ρ, j < i := by
          intro j hj
          have hb := hRI.bound j hj
          rwa [prodBound_decoding hprod] at hb
        refine hI.setRun _ heq ⟨?_, ?_, ?_, hRI.fetchLe, hRI.req⟩
        · show List.Pairwise _ (runSchedL s.sched r ++
            (ρ.queue ++ [(i, d)]).map Prod.fst)
          rw [List.map_append, ← List.append_assoc]
          rw [List.pairwise_append]
          refine ⟨hRI.pw, List.pairwise_singleton _ _, ?_⟩
          intro a ha b hb
          rw [List.mem_map] at hb
          rcases hb with ⟨⟨i', d'⟩, hb1, hb2⟩
          rw [List.mem_singleton] at hb1
          cases hb1
          cases hb2
          exact hbnd a ha
        · intro j hj
          rw [ownIdx] at hj
          show j < ρ.fetchIndex
          rw [List.map_append, ← List.append_assoc] at hj
          rcases List.mem_append.mp hj with h1 | h1
          · have := hbnd j h1
            omega
          · rw [List.map_singleton, List.mem_singleton] at h1
            subst h1
            omega
        · intro i' hi'
          rcases hi' with h1 | ⟨d', h1⟩ <;> cases h1
      all_goals exact Option.noConfusion h
    case _ => exact Option.noConfusion h
  | decodeErr r =>
    simp only [applyStep] at h
    split at h
    case _ ρ heq =>
      split at h
      case _ i d hprod =>
        rw [Option.some.injEq] at h
        subst h
        have hRI := hI.runInv r ρ heq
        have hf : ρ.fetchIndex = i + 1 := hRI.flight i (Or.inr ⟨d, hprod⟩)
        refine hI.setRun _ heq ⟨hRI.pw, ?_, ?_, hRI.fetchLe, hRI.req⟩
        · intro j hj
          have hb := hRI.bound j hj
          rw [prodBound_decoding hprod] at hb
          show j < ρ.fetchIndex
          omega
        · intro i' hi'
          rcases hi' with h1 | ⟨d', h1⟩ <;> cases h1
      all_goals exact Option.noConfusion h
    case _ => exact Option.noConfusion h
  | prodSleep r =>
    simp only [applyStep] at h
    split at h
    case _ ρ heq =>
      split at h
      · split at h
        · rw [Option.some.injEq] at h
          subst h
          exact hI
        · exact Option.noConfusion h
      all_goals exact Option.noConfusion h
    case _ => exact Option.noConfusion h
  | prodExit r =>
    simp only [applyStep] at h
    split at h
    case _ ρ heq =>
      split at h
      case _ hprod =>
        split at h
        · rw [Option.some.injEq] at h
          subst h
          have hRI := hI.runInv r ρ heq
          refine hI.setRun _ heq ⟨hRI.pw, ?_, ?_, hRI.fetchLe, hRI.req⟩
          · intro j hj
            have hb := hRI.bound j hj
            rw [prodBound_loopHead hprod] at hb
            exact hb
          · intro i' hi'
            rcases hi' with h1 | ⟨d', h1⟩ <;> cases h1
        · exact Option.noConfusion h
      all_goals exact Option.noConfusion h
    case _ => exact Option.noConfusion h
  | play r =>
    simp only [applyStep] at h
    split at h
    case _ ρ heq =>
      split at h
      case _ hcons =>
        split at h
        case _ i d rest hq =>
          split at h
          · rw [Option.some.injEq] at h
            subst h
            have hRI := hI.runInv r ρ heq
            have hlt := (List.getElem?_eq_some.mp heq).1
            refine ⟨?_, ?_, ?_, ?_⟩
            · intro r' ρ'' h'
              rw [List.getElem?_set] at h'
              by_cases hrr : r = r'
              · subst hrr
                rw [if_pos rfl, if_pos hlt, Option.some.injEq] at h'
                subst h'
                refine ⟨?_, ?_, hRI.flight, hRI.fetchLe, hRI.req⟩
                · simp only [ownIdx, runSchedL_append_mk, if_pos]
                  have hpw := hRI.pw
                  simp only [ownIdx, hq, List.map_cons] at hpw
                  simpa [List.append_assoc] using hpw
                · intro j hj
                  simp only [ownIdx, runSchedL_append_mk, if_pos] at hj
                  apply hRI.bound
                  simp only [ownIdx, hq, List.map_cons]
                  simpa [List.append_assoc] using hj
              · rw [if_neg hrr] at h'
                have hRI' := hI.runInv r' ρ'' h'
                refine ⟨?_, ?_, hRI'.flight, hRI'.fetchLe, hRI'.req⟩
                · simp only [ownIdx, runSchedL_append_mk, if_neg hrr,
                    List.append_nil]
                  exact hRI'.pw
                · intro j hj
                  simp only [ownIdx, runSchedL_append_mk, if_neg hrr,
                    List.append_nil] at hj
                  exact hRI'.bound j hj
            · intro e he
              rcases List.mem_append.mp he with h1 | h1
              · have := hI.schedRun e h1
                simpa [List.length_set] using this
              · rw [List.mem_singleton] at h1
                subst h1
                simpa [List.length_set] using hlt
            · intro p hp
              have := hI.reqRun p hp
              simpa [List.length_set] using this
            · intro i' hi'
              rw [List.length_append, List.length_singleton] at hi'
              rcases Nat.lt_succ_iff_lt_or_eq.mp hi' with h1 | h1
              · rcases hI.srcTracked i' h1 with h2 | h2
                · exact Or.inl (List.mem_append_left _ h2)
                · exact Or.inr h2
              · subst h1
                exact Or.inl (List.mem_append_right _
                  (List.mem_singleton.mpr rfl))
          · exact Option.noConfusion h
        case _ => exact Option.noConfusion h
      all_goals exact Option.noConfusion h
    case _ => exact Option.noConfusion h
  | waitDone r =>
    simp only [applyStep] at h
    split at h
    case _ ρ heq =>
      split at h
      · rw [Option.some.injEq] at h
        subst h
        exact hI.setRun { ρ with consumer := .loopHead } heq
          ((hI.runInv r ρ heq).consumerStep _)
      all_goals exact Option.noConfusion h
    case _ => exact Option.noConfusion h
  | consPoll r =>
    simp only [applyStep] at h
    split at h
    case _ ρ heq =>
      split at h
      · split at h
        · rw [Option.some.injEq] at h
          subst h
          exact ⟨hI.runInv, hI.schedRun, hI.reqRun, hI.srcTracked⟩
        · exact Option.noConfusion h
      all_goals exact Option.noConfusion h
    case _ => exact Option.noConfusion h
  | consExit r =>
    simp only [applyStep] at h
    split at h
    case _ ρ heq =>
      split at h
      · split at h
        · rw [Option.some.injEq] at h
          subst h
          exact Inv.of_fields
            (hI.setRun { ρ with consumer := .finished } heq
              ((hI.runInv r ρ heq).consumerStep _))
            rfl rfl rfl rfl rfl rfl
        · exact Option.noConfusion h
      all_goals exact Option.noConfusion h
    case _ => exact Option.noConfusion h
  | setRate q =>
    simp only [applyStep] at h
    split at h
    · rw [Option.some.injEq] at h
      subst h
      exact ⟨hI.runInv, hI.schedRun, hI.reqRun, hI.srcTracked⟩
    · exact Option.noConfusion h
  | stop =>
    simp only [applyStep] at h
    rw [Option.some.injEq] at h
    subst h
    refine ⟨hI.runInv, hI.schedRun, hI.reqRun, ?_⟩
    intro i hi
    rcases hI.srcTracked i hi with h1 | h1
    · exact Or.inr (List.mem_append_right _ h1)
    · exact Or.inr (List.mem_append_left _ h1)
  | tick dt =>
    simp only [applyStep] at h
    split at h
    · rw [Option.some.injEq] at h
      subst h
      exact ⟨hI.runInv, hI.schedRun, hI.reqRun, hI.srcTracked⟩
    · exact Option.noConfusion h
  | reinvoke =>
    simp only [applyStep] at h
    split at h
    · rw [Option.some.injEq] at h
      subst h
      refine ⟨?_, ?_, ?_, hI.srcTracked⟩
      · intro r' ρ'' h'
        rw [List.getElem?_append] at h'
        split at h'
        · exact hI.runInv r' ρ'' h'
        · rename_i hge
          have h0 : r' - s.runs.length = 0 ∧ ρ'' = freshRun := by
            rcases hk : r' - s.runs.length with _ | k
            · rw [hk] at h'
              rw [show ([freshRun] : List RunState)[0]? = some freshRun
                from rfl, Option.some.injEq] at h'
              exact ⟨rfl, h'.symm⟩
            · rw [hk] at h'
              rw [show ([freshRun] : List RunState)[k + 1]? = none
                from rfl] at h'
              cases h'
          have hr' : r' = s.runs.length := by omega
          subst hr'
          rw [h0.2]
          exact runInv_fresh _ _ _ _
            (runSchedL_eq_nil (fun e he => hI.schedRun e he))
            (runReqL_eq_nil (fun p hp => hI.reqRun p hp))
      · intro e he
        have := hI.schedRun e he
        rw [List.length_append, List.length_singleton]
        omega
      · intro p hp
        have := hI.reqRun p hp
        rw [List.length_append, List.length_singleton]
        omega
    · exact Option.noConfusion h

/-- Every reachable state satisfies the system invariant. -/
theorem reach_inv {text : List Char} {t0 r0 : ℚ} {s : SysState}
    (h : Reachable text t0 r0 s) : Inv s := by
  induction h with
  | refl => exact inv_init text t0 r0
  | tail _ hstep ih =>
    obtain ⟨l, hl⟩ := hstep
    exact inv_step hl ih

theorem prodBound_finished {ρ : RunState} (h : ρ.producer = .finished) :
    prodBound ρ = ρ.fetchIndex := by
  rw [prodBound, h]

/-- C2: within each pipeline run the chunk indices of the scheduled sources
followed by those still in the run's buffer queue are strictly increasing
and lie in 0..N-1 — the queue is FIFO by chunk index and a later chunk's
decoded buffer is never placed ahead of an earlier one, regardless of how
the scheduler interleaves the producer's and consumer's suspensions. -/
theorem c2_fifo_order (text : List Char) (t0 r0 : ℚ) (s : SysState)
    (h : Reachable text t0 r0 s) (r : Nat) (ρ : RunState)
    (hr : s.runs[r]? = some ρ) :
    List.Pairwise (· < ·) (runSchedL s.sched r ++ ρ.queue.map Prod.fst) ∧
    ∀ j ∈ runSchedL s.sched r ++ ρ.queue.map Prod.fst,
      j < s.chunks.length := by
  have hRI := (reach_inv h).runInv r ρ hr
  refine ⟨hRI.pw, ?_⟩
  intro j hj
  have hb := hRI.bound j hj
  have hpb : prodBound ρ ≤ ρ.fetchIndex := by
    rcases hprod : ρ.producer with _ | i | ⟨i, d⟩ | _
    · rw [prodBound_loopHead hprod]
    · rw [prodBound_fetching hprod, hRI.flight i (Or.inl hprod)]
      omega
    · rw [prodBound_decoding hprod, hRI.flight i (Or.inr ⟨d, hprod⟩)]
      omega
    · rw [prodBound_finished hprod]
  have hle := hRI.fetchLe
  omega

/-- C2 witness: in the `ex` execution (chunk 1 failed) the scheduled chunk
indices of run 0 are the strictly increasing [0, 2]. -/
theorem c2_witness :
    List.Pairwise (· < ·) (runSchedL ex11.sched 0 ++
      (([] : List (Nat × ℚ)).map Prod.fst)) ∧
    runSchedL ex11.sched 0 = [0, 2] :=
  ⟨(c2_fifo_order exT 0 1 ex11 exReach11 0
      ⟨[], 3, 2, .loopHead, .waiting⟩ (by rfl)).1, by rfl⟩

/-- C4: a failed synthesis request is logged and skipped.  In every
reachable state each run has requested exactly the chunks below its fetch
cursor, once each and in index order, whether or not requests failed (the
cursor was already advanced before the request, so the producer moves on to
the next chunk); and the `fetchErr` step changes no user-visible state:
abort flag, schedule, UI flags and request history are untouched and the
producer simply returns to its loop head. -/
theorem c4_skip_failed_chunk :
    (∀ text t0 r0 s, Reachable text t0 r0 s →
      ∀ r ρ, s.runs[r]? = some ρ →
        runReqL s.requests r = List.range ρ.fetchIndex) ∧
    (∀ s s' r, applyStep (.fetchErr r) s = some s' →
      s'.aborted = s.aborted ∧ s'.sched = s.sched ∧
      s'.isReading = s.isReading ∧ s'.isBuffering = s.isBuffering ∧
      s'.requests = s.requests ∧
      ∃ ρ i, s.runs[r]? = some ρ ∧ ρ.producer = .fetching i ∧
        s'.runs = s.runs.set r { ρ with producer := .loopHead }) := by
  constructor
  · intro text t0 r0 s h r ρ hr
    exact ((reach_inv h).runInv r ρ hr).req
  · intro s s' r h
    simp only [applyStep] at h
    split at h
    case _ ρ heq =>
      split at h
      case _ i hprod =>
        rw [Option.some.injEq] at h
        subst h
        exact ⟨rfl, rfl, rfl, rfl, rfl, ρ, i, heq, hprod, rfl⟩
      all_goals exact Option.noConfusion h
    case _ => exact Option.noConfusion h

/-- C4 witness: the `ex` execution, where the request for chunk 1 fails:
all three chunks were requested in order, the failure step left the abort
flag and request history unchanged, and chunks 0 and 2 were scheduled while
chunk 1 was omitted. -/
theorem c4_witness :
    runReqL ex11.requests 0 = List.range 3 ∧
    ex5.aborted = ex4.aborted ∧ ex5.requests = ex4.requests ∧
    ex11.sched.map Sched.chunkIdx = [0, 2] ∧ ex11.aborted = false :=
  ⟨c4_skip_failed_chunk.1 exT 0 1 ex11 exReach11 0
      ⟨[], 3, 2, .loopHead, .waiting⟩ (by rfl),
    (c4_skip_failed_chunk.2 ex4 ex5 0 (by rfl)).1,
    (c4_skip_failed_chunk.2 ex4 ex5 0 (by rfl)).2.2.2.2.1,
    by rfl, by rfl⟩

/-- C6 (amended): `stopAudio` sets the shared abort flag, calls `stop()` on
every source in the active list (after any reachable history that list
together with the stop-call history covers every source ever started, so no
started source is left running) and empties the list, and resets the UI
flags; as long as play is not re-invoked the abort flag stays set and no
further source is started and no further chunk is requested — but a
re-invocation clears the shared flag and can revive a stopped run's loops
(see the counterexample). -/
theorem c6_stop_behavior :
    (∀ s s', applyStep .stop s = some s' →
      s'.aborted = true ∧ s'.activeSources = [] ∧
      s'.stopCalls = s.stopCalls ++ s.activeSources ∧
      s'.isReading = false ∧ s'.isBuffering = false ∧
      s'.sched = s.sched ∧ s'.runs = s.runs ∧
      s'.requests = s.requests) ∧
    (∀ text t0 r0 s s', Reachable text t0 r0 s →
      applyStep .stop s = some s' →
      ∀ i, i < s'.sched.length → i ∈ s'.stopCalls) ∧
    (∀ l s s', s.aborted = true → l ≠ .reinvoke →
      applyStep l s = some s' →
      s'.aborted = true ∧ s'.sched = s.sched ∧
      s'.requests = s.requests) := by
  refine ⟨?_, ?_, ?_⟩
  · intro s s' h
    simp only [applyStep] at h
    rw [Option.some.injEq] at h
    subst h
    exact ⟨rfl, rfl, rfl, rfl, rfl, rfl, rfl, rfl⟩
  · intro text t0 r0 s s' hreach h
    have hI := reach_inv hreach
    simp only [applyStep] at h
    rw [Option.some.injEq] at h
    subst h
    intro i hi
    rcases hI.srcTracked i hi with h1 | h1
    · exact List.mem_append_right _ h1
    · exact List.mem_append_left _ h1
  · intro l s s' hab hne h
    cases l
    case reinvoke => exact absurd rfl hne
    all_goals
      simp only [applyStep] at h
    all_goals
      repeat' split at h
    all_goals
      first
      | exact Option.noConfusion h
      | (rw [Option.some.injEq] at h; subst h;
         first
         | exact ⟨hab, rfl, rfl⟩
         | exact ⟨rfl, rfl, rfl⟩
         | simp_all)

/-- C6 witness: stopping the `ex` execution after two sources were started
stops both (their ids 0 and 1 end up in the stop-call history), empties the
active list, and a subsequent clock tick (not a re-invocation) schedules
nothing new. -/
theorem c6_witness :
    ex12.aborted = true ∧ ex12.activeSources = [] ∧
    ex12.stopCalls = ex11.stopCalls ++ ex11.activeSources ∧
    ex12.isReading = false ∧
    0 ∈ ex12.stopCalls ∧ 1 ∈ ex12.stopCalls ∧
    (stepTo zb4 (.tick 1)).sched = zb4.sched :=
  have h1 := c6_stop_behavior.1 ex11 ex12 (by rfl)
  have h2 := c6_stop_behavior.2.1 exT 0 1 ex11 ex12 exReach11 (by rfl)
  have h3 := c6_stop_behavior.2.2 (.tick 1) zb4 (stepTo zb4 (.tick 1))
    (by rfl) (by decide) (by rfl)
  ⟨h1.1, h1.2.1, h1.2.2.1, h1.2.2.2.1, h2 0 (by decide), h2 1 (by decide),
    h3.2.1⟩

/-! ## Empty documents (C3) -/

theorem chunks_const : ∀ {l : Label} {s s' : SysState},
    applyStep l s = some s' → s'.chunks = s.chunks := by
  intro l s s' h
  cases l <;> simp only [applyStep] at h <;> repeat' split at h
  all_goals
    first
    | exact Option.noConfusion h
    | (rw [Option.some.injEq] at h; subst h; rfl)

theorem emptyInv_setRun {s : SysState} (hE : EmptyInv s) {r : Nat}
    {ρ : RunState} (heq : s.runs[r]? = some ρ) (ρ' : RunState)
    (hq : ρ'.queue = ρ.queue) (hf : ρ'.fetchIndex = ρ.fetchIndex)
    (hp : ρ'.playIndex = ρ.playIndex)
    (hpr : ρ'.producer = ProdState.loopHead ∨
      ρ'.producer = ProdState.finished) :
    EmptyInv { s with runs := s.runs.set r ρ' } := by
  refine ⟨hE.1, hE.2.1, ?_⟩
  intro r' ρ'' h'
  rw [List.getElem?_set] at h'
  by_cases hrr : r = r'
  · subst hrr
    rw [if_pos rfl, if_pos (List.getElem?_eq_some.mp heq).1,
      Option.some.injEq] at h'
    subst h'
    obtain ⟨h1, h2, h3, _⟩ := hE.2.2 r ρ heq
    exact ⟨hq.trans h1, hf.trans h2, hp.trans h3, hpr⟩
  · rw [if_neg hrr] at h'
    exact hE.2.2 r' ρ'' h'

theorem emptyInv_of_fields {s s' : SysState} (hE : EmptyInv s)
    (hruns : s'.runs = s.runs) (hsched : s'.sched = s.sched)
    (hreq : s'.requests = s.requests) : EmptyInv s' := by
  refine ⟨?_, ?_, ?_⟩
  · rw [hreq]
    exact hE.1
  · rw [hsched]
    exact hE.2.1
  · intro r ρ h
    rw [hruns] at h
    exact hE.2.2 r ρ h

theorem emptyInv_step {l : Label} {s s' : SysState}
    (h : applyStep l s = some s') (hc : s.chunks = [])
    (hE : EmptyInv s) : EmptyInv s' := by
  cases l with
  | fetchStart r =>
    simp only [applyStep] at h
    split at h
    case _ ρ heq =>
      split at h
      · split at h
        · rename_i hguard
          rw [hc] at hguard
          simp at hguard
        · exact Option.noConfusion h
      all_goals exact Option.noConfusion h
    case _ => exact Option.noConfusion h
  | fetchOk r d =>
    simp only [applyStep] at h
    split at h
    case _ ρ heq =>
      split at h
      case _ i hprod =>
        have := (hE.2.2 r ρ heq).2.2.2
        rw [hprod] at this
        rcases this with h1 | h1 <;> cases h1
      all_goals exact Option.noConfusion h
    case _ => exact Option.noConfusion h
  | fetchErr r =>
    simp only [applyStep] at h
    split at h
    case _ ρ heq =>
      split at h
      case _ i hprod =>
        have := (hE.2.2 r ρ heq).2.2.2
        rw [hprod] at this
        rcases this with h1 | h1 <;> cases h1
      all_goals exact Option.noConfusion h
    case _ => exact Option.noConfusion h
  | decodeDone r =>
    simp only [applyStep] at h
    split at h
    case _ ρ heq =>
      split at h
      case _ i d hprod =>
        have := (hE.2.2 r ρ heq).2.2.2
        rw [hprod] at this
        rcases this with h1 | h1 <;> cases h1
      all_goals exact Option.noConfusion h
    case _ => exact Option.noConfusion h
  | decodeErr r =>
    simp only [applyStep] at h
    split at h
    case _ ρ heq =>
      split at h
      case _ i d hprod =>
        have := (hE.2.2 r ρ heq).2.2.2
        rw [hprod] at this
        rcases this with h1 | h1 <;> cases h1
      all_goals exact Option.noConfusion h
    case _ => exact Option.noConfusion h
  | prodSleep r =>
    simp only [applyStep] at h
    split at h
    case _ ρ heq =>
      split at h
      · split at h
        · rename_i hguard
          rw [hc] at hguard
          simp at hguard
        · exact Option.noConfusion h
      all_goals exact Option.noConfusion h
    case _ => exact Option.noConfusion h
  | prodExit r =>
    simp only [applyStep] at h
    split at h
    case _ ρ heq =>
      split at h
      · split at h
        · rw [Option.some.injEq] at h
          subst h
          exact emptyInv_setRun hE heq _ rfl rfl rfl (Or.inr rfl)
        · exact Option.noConfusion h
      all_goals exact Option.noConfusion h
    case _ => exact Option.noConfusion h
  | play r =>
    simp only [applyStep] at h
    split at h
    case _ ρ heq =>
      split at h
      · split at h
        case _ i d rest hqq =>
          have h1 := (hE.2.2 r ρ heq).1
          rw [h1] at hqq
          cases hqq
        case _ => exact Option.noConfusion h
      all_goals exact Option.noConfusion h
    case _ => exact Option.noConfusion h
  | waitDone r =>
    simp only [applyStep] at h
    split at h
    case _ ρ heq =>
      split at h
      · rw [Option.some.injEq] at h
        subst h
        have := (hE.2.2 r ρ heq).2.2.2
        exact emptyInv_setRun hE heq
          { ρ with consumer := ConsState.loopHead } rfl rfl rfl this
      all_goals exact Option.noConfusion h
    case _ => exact Option.noConfusion h
  | consPoll r =>
    simp only [applyStep] at h
    split at h
    case _ ρ heq =>
      split at h
      · split at h
        · rw [Option.some.injEq] at h
          subst h
          exact emptyInv_of_fields hE rfl rfl rfl
        · exact Option.noConfusion h
      all_goals exact Option.noConfusion h
    case _ => exact Option.noConfusion h
  | consExit r =>
    simp only [applyStep] at h
    split at h
    case _ ρ heq =>
      split at h
      · split at h
        · rw [Option.some.injEq] at h
          subst h
          have := (hE.2.2 r ρ heq).2.2.2
          exact emptyInv_of_fields
            (emptyInv_setRun hE heq
              { ρ with consumer := ConsState.finished } rfl rfl rfl this)
            rfl rfl rfl
        · exact Option.noConfusion h
      all_goals exact Option.noConfusion h
    case _ => exact Option.noConfusion h
  | setRate q =>
    simp only [applyStep] at h
    split at h
    · rw [Option.some.injEq] at h
      subst h
      exact emptyInv_of_fields hE rfl rfl rfl
    · exact Option.noConfusion h
  | stop =>
    simp only [applyStep] at h
    rw [Option.some.injEq] at h
    subst h
    exact emptyInv_of_fields hE rfl rfl rfl
  | tick dt =>
    simp only [applyStep] at h
    split at h
    · rw [Option.some.injEq] at h
      subst h
      exact emptyInv_of_fields hE rfl rfl rfl
    · exact Option.noConfusion h
  | reinvoke =>
    simp only [applyStep] at h
    split at h
    · rw [Option.some.injEq] at h
      subst h
      refine ⟨hE.1, hE.2.1, ?_⟩
      intro r' ρ'' h'
      rw [List.getElem?_append] at h'
      split at h'
      · exact hE.2.2 r' ρ'' h'
      · rcases hk : r' - s.runs.length with _ | k
        · rw [hk] at h'
          rw [show ([freshRun] : List RunState)[0]? = some freshRun
            from rfl, Option.some.injEq] at h'
          rw [← h']
          exact ⟨rfl, rfl, rfl, Or.inl rfl⟩
        · rw [hk] at h'
          rw [show ([freshRun] : List RunState)[k + 1]? = none
            from rfl] at h'
          cases h'
    · exact Option.noConfusion h

theorem emptyInv_init (text : List Char) (t0 r0 : ℚ) :
    EmptyInv (init text t0 r0) := by
  refine ⟨rfl, rfl, ?_⟩
  intro r ρ h
  rcases r with _ | r
  · rw [show (init text t0 r0).runs[0]? = some freshRun from rfl,
      Option.some.injEq] at h
    rw [← h]
    exact ⟨rfl, rfl, rfl, Or.inl rfl⟩
  · rw [show (init text t0 r0).runs[r + 1]? = none from rfl] at h
    cases h

theorem reach_empty {text : List Char} {t0 r0 : ℚ} {s : SysState}
    (hc : getChunks text = []) (h : Reachable text t0 r0 s) :
    s.chunks = [] ∧ EmptyInv s := by
  induction h with
  | refl => exact ⟨hc, emptyInv_init text t0 r0⟩
  | tail _ hstep ih =>
    obtain ⟨l, hl⟩ := hstep
    exact ⟨(chunks_const hl).trans ih.1, emptyInv_step hl ih.1 ih.2⟩

/-- C3 (amended): an empty or whitespace-only document yields an empty chunk
sequence, and then no reachable state of the pipeline ever issues a
speech-synthesis request, schedules a buffer, or queues anything: both loop
guards fail immediately, and the consumer's exit step returns the component
to the generic idle state (`isReading = false`).  No distinct "no text"
message is reported (see the counterexample). -/
theorem c3_empty_no_pipeline (text : List Char) (t0 r0 : ℚ) (s : SysState)
    (hc : getChunks text = []) (h : Reachable text t0 r0 s) :
    s.requests = [] ∧ s.sched = [] ∧
    (∀ (r : Nat) (ρ : RunState), s.runs[r]? = some ρ →
      ρ.queue = [] ∧ ρ.fetchIndex = 0 ∧ ρ.playIndex = 0) ∧
    (∀ s' r, applyStep (.consExit r) s = some s' → s.aborted = false →
      s'.isReading = false) := by
  obtain ⟨hchunks, hE⟩ := reach_empty hc h
  refine ⟨hE.1, hE.2.1, ?_, ?_⟩
  · intro r ρ hr
    obtain ⟨h1, h2, h3, _⟩ := hE.2.2 r ρ hr
    exact ⟨h1, h2, h3⟩
  · intro s' r hstep hab
    simp only [applyStep] at hstep
    split at hstep
    case _ ρ heq =>
      split at hstep
      · split at hstep
        · rw [Option.some.injEq] at hstep
          subst hstep
          have hcond : s.chunks.length ≤ ρ.playIndex ∧ s.aborted = false :=
            ⟨by rw [hchunks]; exact Nat.zero_le _, hab⟩
          simp [hcond]
        · exact Option.noConfusion hstep
      all_goals exact Option.noConfusion hstep
    case _ => exact Option.noConfusion hstep

/-- C3 witness: the empty and a whitespace-only document produce no chunks;
at the initial state of the empty-document run nothing has been requested,
and the consumer-exit step of that run ends with `isReading = false`. -/
theorem c3_witness :
    getChunks ("".toList) = [] ∧ getChunks ("  \n ".toList) = [] ∧
    (init ([] : List Char) 0 1).requests = [] ∧ c3s1.isReading = false :=
  ⟨by decide, by decide,
    (c3_empty_no_pipeline ([] : List Char) 0 1 (init ([] : List Char) 0 1)
      (by decide) Relation.ReflTransGen.refl).1,
    (c3_empty_no_pipeline ([] : List Char) 0 1 (init ([] : List Char) 0 1)
      (by decide) Relation.ReflTransGen.refl).2.2.2 c3s1 0 (by rfl)
      (by rfl)⟩

end Claramente
